import Mathlib

/-!
# Verification of the `bulkhead` in-memory VFS backend (`VfsMem`)

A shallow embedding of the in-memory virtual filesystem backend from
`src/backends/memory/fs.rs` (together with `src/backends/memory/node.rs`,
`src/types.rs`, `src/error.rs`), and proofs of the specified properties.

Modelling choices:
* Rust `String`/`&str` path values are `List Char` (`Str`), so the character
  level operations (`trim_matches`, `split`, `starts_with`, slicing) are
  ordinary list functions translated from their Rust semantics.
* The `HashMap<String, Node>` namespace is an association list with
  first-match lookup; `insert` replaces the first binding of the key when
  present and otherwise appends, and `remove` deletes the bindings of the
  key, matching the map semantics (keys are unique in every reachable
  state).
* `std::collections::hash_map::DefaultHasher` is an opaque deterministic
  hash; the development is parameterized by an arbitrary `hash : Str → Nat`.
* `SystemTime::now()` is an explicit `now : Nat` argument to the mutating
  operations.
* Machine integers (`u64` handle counter, `u32` version, `usize` sizes and
  offsets) are modelled as `Nat`.
* The phantom type parameter `T` of `open`/`create` is inspected in the
  source through `type_name::<T>().contains("File")` /
  `.contains("Dir")`; it is modelled by a pair of Booleans recording the
  outcome of those two tests.
* Every backend operation takes the backend state and returns
  `(result, new state)`.  The read-only operations (`walk`, `stat`,
  `read`, `readdir`) hold only the shared read lock in the source and
  structurally cannot modify the state, so their translation returns the
  state unchanged.
-/

deriving instance DecidableEq for Except

namespace Bulkhead

/-- Paths and other Rust strings, modelled as their character lists. -/
abbrev Str := List Char

/-- `VfsError` from `src/error.rs` (payload strings kept). -/
inductive VfsError where
  | notFound (p : Str)
  | permissionDenied (r : Str)
  | alreadyExists (p : Str)
  | notADirectory (p : Str)
  | isADirectory (p : Str)
  | invalidArgument (r : Str)
  | invalidPath (r : Str)
  | badOffset
  | lockPoisoned
  deriving DecidableEq, Repr

/-- Filesystem node from `src/backends/memory/node.rs`: a file carries a
byte buffer, an mtime and a version counter; a directory carries an mtime. -/
inductive Node where
  | file (data : List Nat) (mtime : Nat) (version : Nat)
  | dir (mtime : Nat)
  deriving DecidableEq, Repr

namespace Node

/-- `Node::new_file()`. -/
def new_file (now : Nat) : Node := .file [] now 0

/-- `Node::new_dir()`. -/
def new_dir (now : Nat) : Node := .dir now

/-- `Node::is_file`. -/
def is_file : Node → Bool
  | .file .. => true
  | .dir _ => false

/-- `Node::is_dir`. -/
def is_dir : Node → Bool
  | .file .. => false
  | .dir _ => true

/-- `Node::mtime`. -/
def mtime : Node → Nat
  | .file _ m _ => m
  | .dir m => m

/-- `Node::size` — byte length for files, 0 for directories. -/
def size : Node → Nat
  | .file d _ _ => d.length
  | .dir _ => 0

/-- `Node::version` — version for files, 0 for directories. -/
def version : Node → Nat
  | .file _ _ v => v
  | .dir _ => 0

end Node

/-- 9P qid from `src/types.rs`: type byte, version, path identifier. -/
structure Qid where
  ty : Nat
  version : Nat
  path : Nat
  deriving DecidableEq, Repr

/-- `Qid::new_file` (type byte `QTFILE = 0x00`). -/
def Qid.new_file (path version : Nat) : Qid := ⟨0x00, version, path⟩

/-- `Qid::new_dir` (type byte `QTDIR = 0x80`). -/
def Qid.new_dir (path version : Nat) : Qid := ⟨0x80, version, path⟩

/-- 9P stat record from `src/types.rs`. -/
structure Stat where
  qid : Qid
  name : Str
  size : Nat
  mode : Nat
  atime : Nat
  mtime : Nat
  uid : Str
  gid : Str
  deriving DecidableEq, Repr

/-- `WalkResult` from `src/types.rs`. -/
structure WalkResult where
  qids : List Qid
  deriving DecidableEq, Repr

/-- `FileHandle` from `src/types.rs` (the two phantom parameters are
erased; only the runtime fields remain). -/
structure FileHandle where
  fid : Nat
  qid : Qid
  path : Str
  mode : Nat
  deriving DecidableEq, Repr

/-- Outcome of the `type_name::<T>().contains("File")` and
`.contains("Dir")` tests used by `open`/`create` to inspect the phantom
object-kind parameter `T`. -/
structure Kind where
  containsFile : Bool
  containsDir : Bool
  deriving DecidableEq, Repr

/-- The marker type `File`. -/
def Kind.fileK : Kind := ⟨true, false⟩

/-- The marker type `Dir`. -/
def Kind.dirK : Kind := ⟨false, true⟩

/-! ## String primitives translated from Rust -/

/-- Rust `str::contains("..")`: some two adjacent characters are `'.'`. -/
def containsDotDot : Str → Bool
  | a :: b :: rest => (a = '.' && b = '.') || containsDotDot (b :: rest)
  | _ => false

/-- Rust `str::trim_matches('/')`: strip every leading and trailing `'/'`. -/
def trimSlashes (l : Str) : Str :=
  ((l.dropWhile (· = '/')).reverse.dropWhile (· = '/')).reverse

/-- Rust `str::split(c)`: split on every occurrence of `c`, keeping empty
pieces (`"a//b"` splits into `["a", "", "b"]`, `""` into `[""]`). -/
def splitChar (c : Char) : Str → List Str
  | [] => [[]]
  | a :: rest =>
    if a = c then [] :: splitChar c rest
    else
      match splitChar c rest with
      | g :: gs => (a :: g) :: gs
      | [] => [[a]]

/-- Join a list of pieces with the separator `c` (inverse of `splitChar`). -/
def joinChar (c : Char) : List Str → Str
  | [] => []
  | [g] => g
  | g :: gs => g ++ c :: joinChar c gs

/-- Rust `str::rsplit_once(c)`: split at the last occurrence of `c` into
the part before and the part after it. -/
def rsplitOnce (c : Char) : Str → Option (Str × Str)
  | [] => none
  | a :: rest =>
    match rsplitOnce c rest with
    | some (before, after) => some (a :: before, after)
    | none => if a = c then some ([], rest) else none

/-! ## The backend state -/

/-- The namespace map: `HashMap<String, Node>` as an association list. -/
abbrev NS := List (Str × Node)

/-- `HashMap::get`: first-match lookup. -/
def lookupNS (ns : NS) (p : Str) : Option Node :=
  match ns with
  | [] => none
  | (k, v) :: rest => if k = p then some v else lookupNS rest p

/-- The key list of the namespace (`HashMap::keys`). -/
def keysNS (ns : NS) : List Str := ns.map (·.1)

/-- Replace the first binding of key `p` by `n`. -/
def replaceNS (ns : NS) (p : Str) (n : Node) : NS :=
  match ns with
  | [] => []
  | (k, v) :: rest => if k = p then (k, n) :: rest else (k, v) :: replaceNS rest p n

/-- `HashMap::insert`: overwrite the binding when the key is present,
otherwise add it. -/
def insertNS (ns : NS) (p : Str) (n : Node) : NS :=
  match lookupNS ns p with
  | some _ => replaceNS ns p n
  | none => ns ++ [(p, n)]

/-- `HashMap::remove`: drop the bindings of the key. -/
def removeNS : NS → Str → NS
  | [], _ => []
  | (k, v) :: rest, p => if k = p then removeNS rest p else (k, v) :: removeNS rest p

/-- The backend state `VfsMem` from `src/backends/memory/fs.rs`: the
path-keyed node store and the monotonically increasing handle counter. -/
structure VfsMem where
  nodes : NS
  nextFid : Nat
  deriving DecidableEq, Repr

/-- The root path `"/"`. -/
def rootPath : Str := ['/']

/-- `VfsMem::new()`: a namespace holding only the root directory, handle
counter starting at 1.  The root's creation time is the `now` argument. -/
def VfsMem.new (now : Nat) : VfsMem :=
  { nodes := [(rootPath, Node.new_dir now)], nextFid := 1 }

/-! ## Path normalization (`VfsMem::normalize_path`) -/

/-- `VfsMem::normalize_path` from `src/backends/memory/fs.rs`:
reject any path containing `".."`, reject the empty path, map `"/"` to
itself, strip leading/trailing slashes (an all-slash path normalizes to
`"/"`), reject empty components, and prepend `'/'`. -/
def normalizePath (path : Str) : Except VfsError Str :=
  if containsDotDot path then
    .error (.invalidPath (".. traversal not allowed".data))
  else if path = [] then
    .error (.invalidPath ("empty path".data))
  else if path = rootPath then
    .ok rootPath
  else
    let clean := trimSlashes path
    if clean = [] then
      .ok rootPath
    else if (splitChar '/' clean).any (· = []) then
      .error (.invalidPath ("empty path component".data))
    else
      .ok ('/' :: clean)

/-! ## Helper functions of `VfsMem` -/

/-- The qid of a node at a path, as built inline by `walk`, `open` and
`node_to_stat`: file-typed with the node's version for files, dir-typed
with version 0 for directories; the qid path is the hash of the path. -/
def qidOfNode (hash : Str → Nat) (p : Str) (node : Node) : Qid :=
  if node.is_file then Qid.new_file (hash p) node.version
  else Qid.new_dir (hash p) 0

/-- The prefix used by `get_dir_children`: `dirPath ++ "/"`, or just
`"/"` when `dirPath` is the root. -/
def dirPre (dirPath : Str) : Str :=
  if dirPath = rootPath then rootPath else dirPath ++ ['/']

/-- `VfsMem::get_dir_children`: the names of the immediate children of
`dirPath` — keys that start with the prefix, are not `dirPath` itself,
and whose remainder after the prefix contains no further `'/'`. -/
def getDirChildren (dirPath : Str) (ns : NS) : List Str :=
  ((keysNS ns).filter (fun p => (dirPre dirPath).isPrefixOf p && p ≠ dirPath)).filterMap
    (fun p =>
      if (p.drop (dirPre dirPath).length).contains '/' then none
      else some (p.drop (dirPre dirPath).length))

/-- `VfsMem::node_to_stat`: the stat record synthesized for a node.  The
name is the last piece of `path.split('/')` (falling back to the whole
path if the split were empty); mode is `0o755` for directories and
`0o644` for files; uid/gid are the placeholders `"user"`/`"group"`. -/
def nodeToStat (hash : Str → Nat) (p : Str) (node : Node) : Stat :=
  let name := match (splitChar '/' p).getLast? with
    | some n => n
    | none => p
  { qid := qidOfNode hash p node
    name := name
    size := node.size
    mode := if node.is_dir then 0o755 else 0o644
    atime := node.mtime
    mtime := node.mtime
    uid := "user".data
    gid := "group".data }

/-- The parent path used by `ensure_parent_exists`: everything before the
last `'/'` (the root if that part is empty or there is no `'/'`). -/
def parentOf (p : Str) : Str :=
  match rsplitOnce '/' p with
  | some (pr, _) => if pr = [] then rootPath else pr
  | none => rootPath

/-- `VfsMem::ensure_parent_exists`: the root needs no parent; otherwise
the parent path must be present and be a directory. -/
def ensureParentExists (p : Str) (ns : NS) : Except VfsError Unit :=
  if p = rootPath then .ok ()
  else
    match lookupNS ns (parentOf p) with
    | some node =>
      if node.is_dir then .ok () else .error (.notADirectory (parentOf p))
    | none => .error (.notFound ("parent directory: ".data ++ parentOf p))

/-- The child path built during `walk`/`readdir`: join with `'/'`,
avoiding a double slash at the root. -/
def childPath (current name : Str) : Str :=
  if current = rootPath then '/' :: name else current ++ '/' :: name

/-! ## The eight backend operations

Each operation takes the backend state and returns `(result, new state)`.
-/

/-- The loop of `VfsMem::walk`: for each name, reject names containing
`'/'` or equal to `".."`; descend while the child path exists; stop
successfully at the first absent child. -/
def walkAux (hash : Str → Nat) (ns : NS) : Str → List Str → Except VfsError (List Qid)
  | _, [] => .ok []
  | current, name :: rest =>
    if '/' ∈ name ∨ name = ['.', '.'] then
      .error (.invalidPath ("invalid name: ".data ++ name))
    else
      let next := childPath current name
      match lookupNS ns next with
      | some node =>
        match walkAux hash ns next rest with
        | .ok qids => .ok (qidOfNode hash next node :: qids)
        | .error e => .error e
      | none => .ok []

/-- `VfsMem::walk`: normalize the start path, fail `NotFound` if it is
absent, then run the walk loop. -/
def walk (hash : Str → Nat) (s : VfsMem) (start : Str) (names : List Str) :
    Except VfsError WalkResult × VfsMem :=
  (match normalizePath start with
   | .error e => .error e
   | .ok st =>
     if (lookupNS s.nodes st).isSome then
       match walkAux hash s.nodes st names with
       | .ok qids => .ok ⟨qids⟩
       | .error e => .error e
     else .error (.notFound st), s)

/-- `VfsMem::stat`: normalize, look the node up, synthesize the stat. -/
def stat (hash : Str → Nat) (s : VfsMem) (path : Str) :
    Except VfsError Stat × VfsMem :=
  (match normalizePath path with
   | .error e => .error e
   | .ok q =>
     match lookupNS s.nodes q with
     | none => .error (.notFound q)
     | some node => .ok (nodeToStat hash q node), s)

/-- `VfsMem::open` (named `openOp` because `open` is a Lean keyword):
normalize, fail `NotFound` if absent, check the requested kind against
the stored node (`NotADirectory` when a Dir was requested on a file,
`IsADirectory` when a File was requested on a directory), then allocate
the next handle id. -/
def openOp (hash : Str → Nat) (s : VfsMem) (path : Str) (k : Kind) (mode : Nat) :
    Except VfsError FileHandle × VfsMem :=
  match normalizePath path with
  | .error e => (.error e, s)
  | .ok q =>
    match lookupNS s.nodes q with
    | none => (.error (.notFound q), s)
    | some node =>
      let isValid := if node.is_file then k.containsFile else k.containsDir
      if isValid then
        (.ok ⟨s.nextFid, qidOfNode hash q node, q, mode⟩,
         { s with nextFid := s.nextFid + 1 })
      else if node.is_file then (.error (.notADirectory q), s)
      else (.error (.isADirectory q), s)

/-- `VfsMem::create`: normalize, fail `AlreadyExists` if present, check
the parent, insert an empty file or directory according to the kind
tests (else `InvalidArgument`), then `open` the new node. -/
def create (hash : Str → Nat) (now : Nat) (s : VfsMem) (path : Str) (k : Kind)
    (mode : Nat) : Except VfsError FileHandle × VfsMem :=
  match normalizePath path with
  | .error e => (.error e, s)
  | .ok q =>
    if (lookupNS s.nodes q).isSome then (.error (.alreadyExists q), s)
    else
      match ensureParentExists q s.nodes with
      | .error e => (.error e, s)
      | .ok _ =>
        if k.containsFile then
          openOp hash { s with nodes := insertNS s.nodes q (Node.new_file now) } q k mode
        else if k.containsDir then
          openOp hash { s with nodes := insertNS s.nodes q (Node.new_dir now) } q k mode
        else (.error (.invalidArgument ("unknown type".data)), s)

/-- `VfsMem::read`: resolve the handle's path; an offset strictly past
the end yields an empty result, otherwise the bytes
`[offset, min(offset+count, length))` are returned. -/
def read (s : VfsMem) (handlePath : Str) (offset count : Nat) :
    Except VfsError (List Nat) × VfsMem :=
  (match lookupNS s.nodes handlePath with
   | none => .error (.notFound handlePath)
   | some (.dir _) => .error (.isADirectory handlePath)
   | some (.file data _ _) =>
     if offset > data.length then .ok []
     else .ok ((data.take (min (offset + count) data.length)).drop offset), s)

/-- `VfsMem::write`: resolve the handle's path; zero-extend the buffer to
`offset + len(data)` when needed, splice `data` in at `offset`, stamp the
mtime with the current time, increment the version, return `len(data)`. -/
def write (now : Nat) (s : VfsMem) (handlePath : Str) (offset : Nat)
    (data : List Nat) : Except VfsError Nat × VfsMem :=
  match lookupNS s.nodes handlePath with
  | none => (.error (.notFound handlePath), s)
  | some (.dir _) => (.error (.isADirectory handlePath), s)
  | some (.file fileData _ version) =>
    let fileData1 :=
      if offset + data.length > fileData.length then
        fileData ++ List.replicate (offset + data.length - fileData.length) 0
      else fileData
    let newData := fileData1.take offset ++ data ++ fileData1.drop (offset + data.length)
    (.ok data.length,
     { s with nodes := replaceNS s.nodes handlePath (.file newData now (version + 1)) })

/-- `VfsMem::remove`: normalize, reject the root with `PermissionDenied`,
reject a non-empty directory with `InvalidArgument`, then delete the
entry (`NotFound` when absent). -/
def remove (s : VfsMem) (path : Str) : Except VfsError Unit × VfsMem :=
  match normalizePath path with
  | .error e => (.error e, s)
  | .ok q =>
    if q = rootPath then (.error (.permissionDenied ("cannot remove root".data)), s)
    else
      let blockedDir :=
        match lookupNS s.nodes q with
        | some node => node.is_dir && !(getDirChildren q s.nodes).isEmpty
        | none => false
      if blockedDir then (.error (.invalidArgument ("directory not empty".data)), s)
      else
        match lookupNS s.nodes q with
        | none => (.error (.notFound q), s)
        | some _ => (.ok (), { s with nodes := removeNS s.nodes q })

/-- `VfsMem::readdir`: resolve the handle's path (`NotADirectory` on a
file), compute the immediate child names, rebuild each child path and
gather the stats of the children that are (still) present. -/
def readdir (hash : Str → Nat) (s : VfsMem) (handlePath : Str) :
    Except VfsError (List Stat) × VfsMem :=
  (match lookupNS s.nodes handlePath with
   | none => .error (.notFound handlePath)
   | some (.file ..) => .error (.notADirectory handlePath)
   | some (.dir _) =>
     .ok ((getDirChildren handlePath s.nodes).filterMap (fun childName =>
       (lookupNS s.nodes (childPath handlePath childName)).map
         (fun childNode => nodeToStat hash (childPath handlePath childName) childNode))),
   s)

/-- A concrete hash for evaluating the development on test inputs. -/
def hash0 : Str → Nat := fun _ => 0

/-- The freshly constructed backend, with creation time 0. -/
def initState : VfsMem := VfsMem.new 0

/-- A small backend state used to instantiate theorems with hypotheses:
the root, a file `/f` holding the single byte 1, and a directory `/d`. -/
def demoState : VfsMem :=
  { nodes := [(rootPath, Node.dir 0), ("/f".data, Node.file [1] 0 0),
              ("/d".data, Node.dir 0)]
    nextFid := 3 }

/-- Reference normalization, written from the words of claim C8 as amended:
(1) the empty string fails; (2) any occurrence of `..` fails; (3) `"/"`
canonicalizes to `"/"`; (4) leading and trailing `'/'` are stripped; a
stripped core that is empty canonicalizes to `"/"`; otherwise the core is
split on `'/'` and any empty component fails; (5) the canonical form is
`'/'` followed by the components joined with `'/'`. -/
def normalizeSpecRef (path : Str) : Except VfsError Str :=
  if path = [] then .error (.invalidPath ("empty path".data))
  else if containsDotDot path then .error (.invalidPath (".. traversal not allowed".data))
  else if path = rootPath then .ok rootPath
  else
    let core := trimSlashes path
    if core = [] then .ok rootPath
    else
      let comps := splitChar '/' core
      if comps.any (· = []) then .error (.invalidPath ("empty path component".data))
      else .ok ('/' :: joinChar '/' comps)

/-- Reference descent, written from the words of claim C3: one entry per
successfully descended component — the child path and the node actually
found there — stopping at the first name whose child path is absent. -/
def specDescend (ns : NS) : Str → List Str → List (Str × Node)
  | _, [] => []
  | current, name :: rest =>
    match lookupNS ns (childPath current name) with
    | some node =>
      (childPath current name, node) :: specDescend ns (childPath current name) rest
    | none => []

/-- Written from the words of claim C7 (with "start with" read strictly,
as the spec sentence does): a namespace key is an immediate child of `dp`
when it starts with `dp` followed by a separator (simply `/` when `dp` is
the root), is not `dp` itself, and its remainder after that prefix
contains no further separator. -/
def immediateChildB (dp p : Str) : Bool :=
  ((dirPre dp).isPrefixOf p && p ≠ dp) && !(p.drop (dirPre dp).length).contains '/'

/-- The states obtainable from a freshly constructed backend by any
sequence of backend operations (`walk`, `stat`, `read` and `readdir`
return the state unchanged, so only the four mutating operations appear
as steps). -/
inductive Reachable (hash : Str → Nat) : VfsMem → Prop where
  | base (now : Nat) : Reachable hash (VfsMem.new now)
  | openStep (s : VfsMem) (p : Str) (k : Kind) (mode : Nat) :
      Reachable hash s → Reachable hash (openOp hash s p k mode).2
  | createStep (now : Nat) (s : VfsMem) (p : Str) (k : Kind) (mode : Nat) :
      Reachable hash s → Reachable hash (create hash now s p k mode).2
  | writeStep (now : Nat) (s : VfsMem) (hp : Str) (offset : Nat)
      (data : List Nat) :
      Reachable hash s → Reachable hash (write now s hp offset data).2
  | removeStep (s : VfsMem) (p : Str) :
      Reachable hash s → Reachable hash (remove s p).2

/-! ## Basic evaluations of the model -/

example : normalizePath "/foo".data = .ok "/foo".data := by decide
example : normalizePath "foo".data = .ok "/foo".data := by decide
example : normalizePath "/foo/bar/".data = .ok "/foo/bar".data := by decide
example : normalizePath "..".data = .error (.invalidPath (".. traversal not allowed".data)) := by decide
example : normalizePath "".data = .error (.invalidPath ("empty path".data)) := by decide
example : normalizePath "a//b".data = .error (.invalidPath ("empty path component".data)) := by decide
example : normalizePath "//".data = .ok "/".data := by decide

example :
    (create hash0 1 initState "/f".data Kind.fileK 0o644).1 =
      .ok ⟨1, Qid.new_file 0 0, "/f".data, 0o644⟩ := by decide

example :
    (stat hash0 (create hash0 1 initState "/f".data Kind.fileK 0o644).2 "/f".data).1 =
      .ok ⟨Qid.new_file 0 0, "f".data, 0, 0o644, 1, 1, "user".data, "group".data⟩ := by
  decide

example :
    (write 2 (create hash0 1 initState "/f".data Kind.fileK 0).2 "/f".data 2 [7, 8]).2.nodes =
      [(rootPath, Node.dir 0), ("/f".data, Node.file [0, 0, 7, 8] 2 1)] := by decide

example :
    (read (write 2 (create hash0 1 initState "/f".data Kind.fileK 0).2 "/f".data 2 [7, 8]).2
      "/f".data 1 10).1 = .ok [0, 7, 8] := by decide

example : (remove initState "/".data).1 =
    .error (.permissionDenied ("cannot remove root".data)) := by decide

example :
    (readdir hash0 (create hash0 1 initState "/f".data Kind.fileK 0).2 "/".data).1 =
      .ok [⟨Qid.new_file 0 0, "f".data, 0, 0o644, 1, 1, "user".data, "group".data⟩] := by
  decide


/-! ## Lemmas about the namespace map -/

theorem lookupNS_append (ns l : NS) (k : Str) :
    lookupNS (ns ++ l) k =
      match lookupNS ns k with
      | some v => some v
      | none => lookupNS l k := by
  induction ns with
  | nil => simp [lookupNS]
  | cons kv rest ih =>
    obtain ⟨k1, v1⟩ := kv
    by_cases h : k1 = k <;> simp [lookupNS, h, ih]

theorem lookupNS_replaceNS_self (ns : NS) (p : Str) (n : Node)
    (h : (lookupNS ns p).isSome) : lookupNS (replaceNS ns p n) p = some n := by
  induction ns with
  | nil => simp [lookupNS] at h
  | cons kv rest ih =>
    obtain ⟨k1, v1⟩ := kv
    by_cases hk : k1 = p
    · simp [lookupNS, replaceNS, hk]
    · simp [lookupNS, replaceNS, hk] at h ⊢
      exact ih h

theorem lookupNS_replaceNS_ne (ns : NS) (p k : Str) (n : Node) (h : k ≠ p) :
    lookupNS (replaceNS ns p n) k = lookupNS ns k := by
  induction ns with
  | nil => simp [replaceNS]
  | cons kv rest ih =>
    obtain ⟨k1, v1⟩ := kv
    by_cases hk : k1 = p
    · subst hk
      have hk1 : ¬ (k1 = k) := fun hh => h hh.symm
      simp [lookupNS, replaceNS, hk1]
    · simp only [replaceNS, if_neg hk]
      by_cases hk2 : k1 = k <;> simp [lookupNS, hk2, ih]

theorem lookupNS_removeNS_ne (ns : NS) (p k : Str) (h : k ≠ p) :
    lookupNS (removeNS ns p) k = lookupNS ns k := by
  induction ns with
  | nil => rfl
  | cons kv rest ih =>
    obtain ⟨k1, v1⟩ := kv
    by_cases hk : k1 = p
    · have hk1 : ¬ (k1 = k) := fun hh => h (hh ▸ hk)
      simp [removeNS, lookupNS, hk, hk1, Ne.symm h, ih]
    · by_cases hk2 : k1 = k <;> simp [removeNS, lookupNS, hk, hk2, h, ih]

theorem lookupNS_insertNS_absent (ns : NS) (p : Str) (n : Node)
    (h : lookupNS ns p = none) : insertNS ns p n = ns ++ [(p, n)] := by
  simp [insertNS, h]

theorem lookupNS_mem_of_nodup (ns : NS) (k : Str) (v : Node)
    (hnd : (keysNS ns).Nodup) (hmem : (k, v) ∈ ns) : lookupNS ns k = some v := by
  induction ns with
  | nil => simp at hmem
  | cons kv rest ih =>
    obtain ⟨k1, v1⟩ := kv
    simp only [keysNS, List.map_cons, List.nodup_cons] at hnd
    rcases List.mem_cons.1 hmem with heq | htail
    · cases heq
      simp [lookupNS]
    · have hk : k1 ≠ k := by
        intro hh
        exact hnd.1 (hh ▸ (List.mem_map.2 ⟨(k, v), htail, rfl⟩))
      simp only [lookupNS, if_neg hk]
      exact ih hnd.2 htail

/-! ## Lemmas about the string primitives -/

theorem containsDotDot_append_left (xs ys : Str) (h : containsDotDot xs = true) :
    containsDotDot (xs ++ ys) = true := by
  induction xs with
  | nil => simp [containsDotDot] at h
  | cons a rest ih =>
    match rest, h with
    | b :: rest2, h =>
      simp only [containsDotDot, Bool.or_eq_true] at h
      rcases h with h | h
      · simp [containsDotDot, h]
      · simp only [List.cons_append, containsDotDot, Bool.or_eq_true]
        exact Or.inr (ih h)

theorem containsDotDot_append_right (xs ys : Str) (h : containsDotDot ys = true) :
    containsDotDot (xs ++ ys) = true := by
  induction xs with
  | nil => simpa using h
  | cons a rest ih =>
    have hne : rest ++ ys ≠ [] := by
      match ys, h with
      | b :: c :: ys2, _ => simp
    match hr : rest ++ ys, hne with
    | b :: tail, _ =>
      simp only [List.cons_append, hr, containsDotDot, Bool.or_eq_true]
      right
      rw [← hr]
      exact ih

theorem head_dropWhile_not {p : Char → Bool} {l t : Str} {a : Char}
    (h : l.dropWhile p = a :: t) : p a = false := by
  induction l with
  | nil => simp [List.dropWhile] at h
  | cons x rest ih =>
    by_cases hx : p x
    · rw [List.dropWhile_cons_of_pos hx] at h
      exact ih h
    · rw [List.dropWhile_cons_of_neg hx] at h
      cases h
      simpa using hx

theorem dropWhile_idem (q : Char → Bool) (l : Str) :
    (l.dropWhile q).dropWhile q = l.dropWhile q := by
  induction l with
  | nil => simp
  | cons a t ih =>
    by_cases h : q a
    · simp [List.dropWhile_cons_of_pos h, ih]
    · simp [List.dropWhile_cons_of_neg h]

/-- The trimmed core sits inside the original path: `p = t₀ ++ core ++ t₁`,
and the front-trimmed path is `core ++ t₁`. -/
theorem trimSlashes_decomp (p : Str) :
    ∃ t0 t1, p = t0 ++ trimSlashes p ++ t1 ∧
      p.dropWhile (fun x => decide (x = '/')) = trimSlashes p ++ t1 := by
  obtain ⟨t0, ht0⟩ :=
    List.dropWhile_suffix (l := p) (fun x => decide (x = '/'))
  obtain ⟨t1, ht1⟩ :=
    List.dropWhile_suffix (l := (p.dropWhile (fun x => decide (x = '/'))).reverse)
      (fun x => decide (x = '/'))
  have hAeq : p.dropWhile (fun x => decide (x = '/')) = trimSlashes p ++ t1.reverse := by
    have h2 := congrArg List.reverse ht1
    simp only [List.reverse_append, List.reverse_reverse] at h2
    rw [← h2]
    rfl
  exact ⟨t0, t1.reverse, by rw [List.append_assoc, ← hAeq, ht0], hAeq⟩

/-- A nonempty trimmed core does not start with `'/'`. -/
theorem trimSlashes_head_ne (p : Str) (a : Char) (t : Str)
    (h : trimSlashes p = a :: t) : ¬ (a = '/') := by
  obtain ⟨t0, t1, _, hA⟩ := trimSlashes_decomp p
  rw [h] at hA
  have := head_dropWhile_not (p := fun x => decide (x = '/')) hA
  simpa using this

/-- A nonempty trimmed core does not end with `'/'` (stated through the
reversed core, which is already fully front-trimmed). -/
theorem trimSlashes_reverse_dropWhile (p : Str) :
    (trimSlashes p).reverse.dropWhile (fun x => decide (x = '/')) =
      (trimSlashes p).reverse := by
  unfold trimSlashes
  rw [List.reverse_reverse]
  exact dropWhile_idem _ _

theorem containsDotDot_infix_false {p mid : Str} (h : containsDotDot p = false)
    (t0 t1 : Str) (heq : p = t0 ++ mid ++ t1) : containsDotDot mid = false := by
  by_contra hc
  have hc' : containsDotDot mid = true := by
    revert hc; cases containsDotDot mid <;> simp
  have h1 : containsDotDot (mid ++ t1) = true := containsDotDot_append_left _ _ hc'
  have h2 : containsDotDot (t0 ++ (mid ++ t1)) = true := containsDotDot_append_right _ _ h1
  rw [heq, List.append_assoc] at h
  rw [h2] at h
  exact Bool.true_eq_false.mp h

theorem splitChar_ne_nil (c : Char) (l : Str) : splitChar c l ≠ [] := by
  induction l with
  | nil => simp [splitChar]
  | cons a rest ih =>
    by_cases h : a = c
    · simp [splitChar, h]
    · simp only [splitChar, if_neg h]
      match hr : splitChar c rest, ih with
      | g :: gs, _ => simp

theorem joinChar_splitChar (c : Char) (l : Str) : joinChar c (splitChar c l) = l := by
  induction l with
  | nil => simp [splitChar, joinChar]
  | cons a rest ih =>
    by_cases h : a = c
    · subst h
      simp only [splitChar, if_pos rfl]
      match hr : splitChar a rest, splitChar_ne_nil a rest with
      | g :: gs, _ =>
        rw [hr] at ih
        simp [joinChar, ih]
    · simp only [splitChar, if_neg h]
      match hr : splitChar c rest, splitChar_ne_nil c rest with
      | g :: gs, _ =>
        rw [hr] at ih
        match gs, ih with
        | [], ih => simp only [joinChar] at ih ⊢; rw [ih]
        | g2 :: gs2, ih =>
          simp only [joinChar] at ih ⊢
          rw [List.cons_append, ih]

/-! ## Shape and idempotence of normalization -/

/-- Any output of `normalize_path` is either the root or `'/'` followed by
the trimmed core, which is nonempty, has no empty component, and retains
"no `..`" from the input. -/
theorem normalizePath_shape (p q : Str) (h : normalizePath p = .ok q) :
    q = rootPath ∨
      (q = '/' :: trimSlashes p ∧ trimSlashes p ≠ [] ∧
        (splitChar '/' (trimSlashes p)).any (· = []) = false ∧
        containsDotDot p = false) := by
  unfold normalizePath at h
  by_cases h1 : containsDotDot p = true
  · simp [h1] at h
  · rw [if_neg h1] at h
    by_cases h2 : p = []
    · simp [h2] at h
    · rw [if_neg h2] at h
      by_cases h3 : p = rootPath
      · rw [if_pos h3] at h
        cases h
        exact Or.inl rfl
      · rw [if_neg h3] at h
        by_cases h4 : trimSlashes p = []
        · simp only [h4, if_pos rfl] at h
          cases h
          exact Or.inl rfl
        · simp only [if_neg h4] at h
          by_cases h5 : (splitChar '/' (trimSlashes p)).any (· = []) = true
          · simp [h5] at h
          · simp only [h5, Bool.false_eq_true, if_false] at h
            cases h
            refine Or.inr ⟨rfl, h4, ?_, ?_⟩
            · simp only [Bool.not_eq_true] at h5
              exact h5
            · simp only [Bool.not_eq_true] at h1
              exact h1

/-- Normalization is idempotent on its successful outputs. -/
theorem normalizePath_idem (p q : Str) (h : normalizePath p = .ok q) :
    normalizePath q = .ok q := by
  rcases normalizePath_shape p q h with hq | ⟨hq, hne, hsplit, hdot⟩
  · subst hq; decide
  · obtain ⟨t0, t1, hinfix, _⟩ := trimSlashes_decomp p
    have hdotclean : containsDotDot (trimSlashes p) = false :=
      containsDotDot_infix_false hdot t0 t1 hinfix
    obtain ⟨a, t, hc⟩ : ∃ a t, trimSlashes p = a :: t := by
      cases hcase : trimSlashes p with
      | nil => exact absurd hcase hne
      | cons a t => exact ⟨a, t, rfl⟩
    have hheadne : ¬ (a = '/') := trimSlashes_head_ne p a t hc
    have hdotq : containsDotDot q = false := by
      rw [hq, hc]
      simp only [containsDotDot, Bool.or_eq_false_iff]
      refine ⟨by simp, ?_⟩
      rw [← hc]
      exact hdotclean
    have htrim : trimSlashes q = trimSlashes p := by
      rw [hq]
      show ((('/' :: trimSlashes p).dropWhile _).reverse.dropWhile _).reverse = _
      have hdw : ('/' :: trimSlashes p).dropWhile (fun x => decide (x = '/')) =
          trimSlashes p := by
        rw [List.dropWhile_cons_of_pos (by simp)]
        rw [hc]
        exact List.dropWhile_cons_of_neg (by simpa using hheadne)
      rw [hdw, trimSlashes_reverse_dropWhile, List.reverse_reverse]
    have hqne : q ≠ rootPath := by
      rw [hq, hc]
      simp [rootPath]
    unfold normalizePath
    rw [hdotq]
    simp only [Bool.false_eq_true, if_false]
    rw [if_neg (by rw [hq]; simp)]
    rw [if_neg hqne]
    simp only [htrim, if_neg hne, hsplit, Bool.false_eq_true, if_false]
    rw [hq]

/-- `normalize_path` only ever fails with `InvalidPath`. -/
theorem normalizePath_error (p : Str) (e : VfsError)
    (h : normalizePath p = .error e) : ∃ m, e = .invalidPath m := by
  unfold normalizePath at h
  by_cases h1 : containsDotDot p = true
  · rw [if_pos h1] at h; cases h; exact ⟨_, rfl⟩
  · rw [if_neg h1] at h
    by_cases h2 : p = []
    · rw [if_pos h2] at h; cases h; exact ⟨_, rfl⟩
    · rw [if_neg h2] at h
      by_cases h3 : p = rootPath
      · rw [if_pos h3] at h; cases h
      · rw [if_neg h3] at h
        by_cases h4 : trimSlashes p = []
        · simp only [h4, if_pos rfl] at h; cases h
        · simp only [if_neg h4] at h
          by_cases h5 : (splitChar '/' (trimSlashes p)).any (· = []) = true
          · rw [if_pos h5] at h; cases h; exact ⟨_, rfl⟩
          · simp only [h5, Bool.false_eq_true, if_false] at h; cases h

/-! ## The claims -/

/-- C8 counterexample: the claim asserts that an input consisting of two
or more `'/'` characters (stripped core empty) fails `InvalidPath`, but
`normalize_path` maps `"//"` to `Ok("/")`. -/
theorem C8_counterexample_all_slashes :
    normalizePath "//".data = .ok "/".data ∧
      (normalizePath "//".data).isOk = true := ⟨by decide, by decide⟩

/-- C8 (amended): path normalization equals the reference definition
applied in order — the empty string fails `InvalidPath`; any occurrence of
the two-character substring `..` fails `InvalidPath`; `"/"` canonicalizes
to `"/"`; otherwise leading and trailing `'/'` are stripped; if the
stripped core is empty the path canonicalizes to `"/"` (this covers inputs
of two or more `'/'` characters); otherwise the core is split on `'/'` and
any empty component (e.g. `"a//b"`) fails `InvalidPath`; on success the
canonical form is `'/'` followed by the components joined with `'/'`. -/
theorem C8_normalize_refines_reference (p : Str) :
    normalizePath p = normalizeSpecRef p := by
  by_cases h2 : p = []
  · subst h2; decide
  · unfold normalizePath normalizeSpecRef
    by_cases h1 : containsDotDot p = true
    · simp [h1, h2]
    · by_cases h3 : p = rootPath
      · subst h3; decide
      · by_cases h4 : trimSlashes p = []
        · simp [h1, h2, h3, h4]
        · by_cases h5 : (splitChar '/' (trimSlashes p)).any (· = []) = true
          · simp [h1, h2, h3, h4, h5]
          · simp [h1, h2, h3, h4, h5, joinChar_splitChar]

/-- C4: on a file handle whose path holds a file, `read` succeeds for
every offset and count — an offset strictly past the file length yields
the empty byte sequence, otherwise exactly the bytes
`[offset, min(offset+count, length))`; a removed path fails `NotFound`. -/
theorem C4_read_bounds (s : VfsMem) (hp : Str) (offset count : Nat) :
    (∀ data m v, lookupNS s.nodes hp = some (.file data m v) →
      (offset > data.length → (read s hp offset count).1 = .ok []) ∧
      (offset ≤ data.length →
        ∃ out, (read s hp offset count).1 = .ok out ∧
          out.length = min (offset + count) data.length - offset ∧
          ∀ j, j < out.length → out[j]? = data[offset + j]?)) ∧
    (lookupNS s.nodes hp = none →
      (read s hp offset count).1 = .error (.notFound hp)) := by
  constructor
  · intro data m v hlook
    constructor
    · intro hoff
      simp [read, hlook, hoff]
    · intro hoff
      have hnot : ¬ (offset > data.length) := by omega
      refine ⟨(data.take (min (offset + count) data.length)).drop offset,
        by simp [read, hlook, hnot], ?_, ?_⟩
      · simp only [List.length_drop, List.length_take]
        omega
      · intro j hj
        simp only [List.length_drop, List.length_take] at hj
        rw [List.getElem?_drop, List.getElem?_take]
        rw [if_pos (by omega)]
  · intro hlook
    simp [read, hlook]

/-- C4 witness: reading `/f` (one byte) at offset 2 gives the empty
sequence, and at offset 0 gives back the byte. -/
theorem C4_witness :
    lookupNS demoState.nodes "/f".data = some (.file [1] 0 0) ∧
      (read demoState "/f".data 2 10).1 = .ok [] ∧
      (read demoState "/f".data 0 10).1 = .ok [1] := by
  refine ⟨by decide, ?_, ?_⟩
  · exact ((C4_read_bounds demoState "/f".data 2 10).1 [1] 0 0 (by decide)).1
      (by decide)
  · obtain ⟨out, hout, hlen, hidx⟩ :=
      ((C4_read_bounds demoState "/f".data 0 10).1 [1] 0 0 (by decide)).2
        (by decide)
    rw [hout]
    have hl : out.length = 1 := by simpa using hlen
    have h0 : out[0]? = some 1 := by
      have := hidx 0 (by omega)
      simpa using this
    match out, hl, h0 with
    | [a], _, h0 =>
      simp only [List.getElem?_cons_zero, Option.some.injEq] at h0
      rw [h0]

/-- C1: on a file handle whose path holds a file, `write(H, O, B)` always
succeeds returning `len(B)` (never `BadOffset`), the buffer becomes
`max(old length, O+len(B))` long, the gap between the old length and `O`
reads back as zero bytes, the bytes at `[O, O+len(B))` become `B`, the
node's mtime becomes the current time and its version increments by 1. -/
theorem C1_write_extends (now : Nat) (s : VfsMem) (hp : Str) (offset : Nat)
    (bytes : List Nat) (buf : List Nat) (m v : Nat)
    (hlook : lookupNS s.nodes hp = some (.file buf m v)) :
    (write now s hp offset bytes).1 = .ok bytes.length ∧
    (write now s hp offset bytes).1 ≠ .error .badOffset ∧
    ∃ newbuf,
      lookupNS (write now s hp offset bytes).2.nodes hp =
        some (.file newbuf now (v + 1)) ∧
      newbuf.length = max buf.length (offset + bytes.length) ∧
      (∀ i, buf.length ≤ i → i < offset → newbuf[i]? = some 0) ∧
      (∀ j, j < bytes.length → newbuf[offset + j]? = bytes[j]?) := by
  have hres : (write now s hp offset bytes).1 = .ok bytes.length := by
    simp [write, hlook]
  have hnotbad : (write now s hp offset bytes).1 ≠ .error .badOffset := by
    rw [hres]
    intro h
    cases h
  refine ⟨hres, hnotbad, ?_⟩
  classical
  set fileData1 :=
    if offset + bytes.length > buf.length then
      buf ++ List.replicate (offset + bytes.length - buf.length) 0
    else buf with hfd1
  set newbuf := fileData1.take offset ++ bytes ++ fileData1.drop (offset + bytes.length)
    with hnb
  have hstate : (write now s hp offset bytes).2.nodes =
      replaceNS s.nodes hp (.file newbuf now (v + 1)) := by
    simp only [write, hlook]
  have hlen1 : fileData1.length = max buf.length (offset + bytes.length) := by
    rw [hfd1]
    by_cases hext : offset + bytes.length > buf.length
    · rw [if_pos hext]; simp; omega
    · rw [if_neg hext]; omega
  have hoffle : offset ≤ fileData1.length := by omega
  have hend : offset + bytes.length ≤ fileData1.length := by omega
  have hlennew : newbuf.length = max buf.length (offset + bytes.length) := by
    rw [hnb]
    simp only [List.length_append, List.length_take, List.length_drop]
    omega
  refine ⟨newbuf, ?_, hlennew, ?_, ?_⟩
  · rw [hstate]
    exact lookupNS_replaceNS_self s.nodes hp _ (by rw [hlook]; rfl)
  · intro i hi1 hi2
    have hext : offset + bytes.length > buf.length := by omega
    rw [hnb, List.append_assoc, List.getElem?_append]
    rw [if_pos (by simp only [List.length_take]; omega)]
    rw [List.getElem?_take, if_pos hi2]
    rw [hfd1, if_pos hext, List.getElem?_append]
    rw [if_neg (by omega)]
    rw [List.getElem?_replicate, if_pos (by omega)]
  · intro j hj
    rw [hnb, List.append_assoc, List.getElem?_append]
    rw [if_neg (by simp only [List.length_take]; omega)]
    have hlt : (fileData1.take offset).length = offset := by
      simp only [List.length_take]; omega
    rw [List.getElem?_append, hlt]
    rw [if_pos (by omega)]
    congr 1
    omega

/-- Opening the path just inserted by `create` always succeeds: the key
is found, the kind matches the node that was inserted, and the handle
counter advances. -/
theorem openOp_after_insert (hash : Str → Nat) (s : VfsMem) (q : Str) (k : Kind)
    (mode : Nat) (n : Node) (hidem : normalizePath q = .ok q)
    (hnone : lookupNS s.nodes q = none)
    (hv : (if n.is_file then k.containsFile else k.containsDir) = true) :
    openOp hash { s with nodes := insertNS s.nodes q n } q k mode =
      (.ok ⟨s.nextFid, qidOfNode hash q n, q, mode⟩,
       { nodes := s.nodes ++ [(q, n)], nextFid := s.nextFid + 1 }) := by
  have hins : insertNS s.nodes q n = s.nodes ++ [(q, n)] :=
    lookupNS_insertNS_absent s.nodes q n hnone
  have hfound : lookupNS (insertNS s.nodes q n) q = some n := by
    rw [hins, lookupNS_append, hnone]
    simp [lookupNS]
  simp only [openOp, hidem, hfound, hv, if_true]
  rw [hins]

/-- C2: `create` fails `AlreadyExists` when the normalized path is
present, `NotADirectory` when the parent exists but is a file, `NotFound`
when the parent is absent, `InvalidArgument` when the kind is neither
File nor Dir, and `InvalidPath` when normalization rejects the path;
parents are never created implicitly, and on success exactly one new node
(an empty file or an empty directory, per the kind) is appended at the
normalized path while the handle counter advances by one. -/
theorem C2_create_semantics (hash : Str → Nat) (now : Nat) (s : VfsMem)
    (p : Str) (k : Kind) (mode : Nat) :
    (∀ e, normalizePath p = .error e →
      create hash now s p k mode = (.error e, s) ∧ ∃ m, e = .invalidPath m) ∧
    (∀ q, normalizePath p = .ok q →
      ((lookupNS s.nodes q).isSome →
        create hash now s p k mode = (.error (.alreadyExists q), s)) ∧
      (lookupNS s.nodes q = none →
        (∀ fd fm fv, lookupNS s.nodes (parentOf q) = some (.file fd fm fv) →
          q ≠ rootPath →
          create hash now s p k mode = (.error (.notADirectory (parentOf q)), s)) ∧
        (lookupNS s.nodes (parentOf q) = none → q ≠ rootPath →
          create hash now s p k mode =
            (.error (.notFound ("parent directory: ".data ++ parentOf q)), s)) ∧
        (ensureParentExists q s.nodes = .ok () →
          (k.containsFile = false → k.containsDir = false →
            create hash now s p k mode =
              (.error (.invalidArgument ("unknown type".data)), s)) ∧
          (k.containsFile = true →
            create hash now s p k mode =
              (.ok ⟨s.nextFid, Qid.new_file (hash q) 0, q, mode⟩,
               { nodes := s.nodes ++ [(q, Node.file [] now 0)],
                 nextFid := s.nextFid + 1 })) ∧
          (k.containsFile = false → k.containsDir = true →
            create hash now s p k mode =
              (.ok ⟨s.nextFid, Qid.new_dir (hash q) 0, q, mode⟩,
               { nodes := s.nodes ++ [(q, Node.dir now)],
                 nextFid := s.nextFid + 1 }))))) := by
  constructor
  · intro e he
    exact ⟨by simp [create, he], normalizePath_error p e he⟩
  · intro q hq
    have hidem := normalizePath_idem p q hq
    constructor
    · intro hsome
      simp [create, hq, hsome]
    · intro hnone
      refine ⟨?_, ?_, ?_⟩
      · intro fd fm fv hpar hroot
        have hens : ensureParentExists q s.nodes = .error (.notADirectory (parentOf q)) := by
          simp [ensureParentExists, hroot, hpar, Node.is_dir]
        simp [create, hq, hnone, hens]
      · intro hpar hroot
        have hens : ensureParentExists q s.nodes =
            .error (.notFound ("parent directory: ".data ++ parentOf q)) := by
          simp [ensureParentExists, hroot, hpar]
        simp [create, hq, hnone, hens]
      · intro hens
        refine ⟨?_, ?_, ?_⟩
        · intro hf hd
          simp [create, hq, hnone, hens, hf, hd]
        · intro hf
          have hfin := openOp_after_insert hash s q k mode (Node.file [] now 0)
            hidem hnone (by simp [Node.is_file, hf])
          simp only [create, hq, hnone, Option.isSome_none, Bool.false_eq_true,
            if_false, hens, hf, if_true, Node.new_file]
          rw [hfin]
          rfl
        · intro hf hd
          have hfin := openOp_after_insert hash s q k mode (Node.dir now)
            hidem hnone (by simp [Node.is_file, hd])
          simp only [create, hq, hnone, Option.isSome_none, Bool.false_eq_true,
            if_false, hens, hf, hd, if_true, Node.new_dir]
          rw [hfin]
          rfl

/-- The walk loop succeeds with the descended prefix as soon as every
*reached* name is well-formed: the names at positions up to and including
the stopping step (one past the descended components).  Names after the
first absent child are never examined by the loop and are unconstrained. -/
theorem walkAux_ok_reached (hash : Str → Nat) (ns : NS) (names : List Str)
    (current : Str)
    (h : ∀ name ∈ names.take ((specDescend ns current names).length + 1),
      ¬('/' ∈ name ∨ name = ['.', '.'])) :
    walkAux hash ns current names =
      .ok ((specDescend ns current names).map (fun pn => qidOfNode hash pn.1 pn.2)) := by
  induction names generalizing current with
  | nil => rfl
  | cons name rest ih =>
    have hv : ¬('/' ∈ name ∨ name = ['.', '.']) := by
      apply h
      rw [List.take_succ_cons]
      exact List.mem_cons_self name _
    simp only [walkAux, if_neg hv]
    cases hl : lookupNS ns (childPath current name) with
    | none => simp [specDescend, hl]
    | some node =>
      have hd : specDescend ns current (name :: rest) =
          (childPath current name, node) ::
            specDescend ns (childPath current name) rest := by
        simp [specDescend, hl]
      have hrest : ∀ n ∈ rest.take
          ((specDescend ns (childPath current name) rest).length + 1),
          ¬('/' ∈ n ∨ n = ['.', '.']) := by
        intro n hn
        apply h
        rw [hd, List.length_cons, List.take_succ_cons]
        exact List.mem_cons_of_mem name hn
      rw [ih _ hrest]
      simp [specDescend, hl]

theorem walkAux_invalid_reached (hash : Str → Nat) (ns : NS) (pre : List Str)
    (name : Str) (post : List Str) (current : Str)
    (hvalid : ∀ n ∈ pre, ¬('/' ∈ n ∨ n = ['.', '.']))
    (hall : (specDescend ns current pre).length = pre.length)
    (hbad : '/' ∈ name ∨ name = ['.', '.']) :
    walkAux hash ns current (pre ++ name :: post) =
      .error (.invalidPath ("invalid name: ".data ++ name)) := by
  induction pre generalizing current with
  | nil => simp [walkAux, hbad]
  | cons a pre2 ih =>
    have hv := hvalid a (List.mem_cons_self a pre2)
    simp only [List.cons_append, walkAux, if_neg hv]
    cases hl : lookupNS ns (childPath current a) with
    | none => simp [specDescend, hl] at hall
    | some node =>
      simp only [specDescend, hl, List.length_cons] at hall
      have hrec := ih (childPath current a)
        (fun n hn => hvalid n (List.mem_cons_of_mem _ hn)) (Nat.succ_injective hall)
      simp [hrec]

/-- C3: for a start path that normalizes to a present key, any walk whose
*reached* names — those at positions up to and including the first absent
child, i.e. in `names.take (d+1)` where `d` is the number of descended
components — are well-formed succeeds and returns one Qid per
successfully descended component (the Qid of the node actually found at
each child path), stopping at the first absent child and returning the
prefix gathered so far as a success; names beyond the stopping point are
never examined.  A name containing `'/'` or equal to `".."` that is
reached (all earlier names descended) fails `InvalidPath`; and a start
path that normalizes to an absent key fails `NotFound`. -/
theorem C3_walk_semantics (hash : Str → Nat) (s : VfsMem) (start st : Str)
    (names : List Str) (hn : normalizePath start = .ok st) :
    ((lookupNS s.nodes st).isSome →
      ((∀ name ∈ names.take ((specDescend s.nodes st names).length + 1),
          ¬('/' ∈ name ∨ name = ['.', '.'])) →
        (walk hash s start names).1 =
          .ok ⟨(specDescend s.nodes st names).map
                (fun pn => qidOfNode hash pn.1 pn.2)⟩) ∧
      (∀ pre name post, names = pre ++ name :: post →
        (∀ n ∈ pre, ¬('/' ∈ n ∨ n = ['.', '.'])) →
        (specDescend s.nodes st pre).length = pre.length →
        ('/' ∈ name ∨ name = ['.', '.']) →
        (walk hash s start names).1 =
          .error (.invalidPath ("invalid name: ".data ++ name)))) ∧
    (lookupNS s.nodes st = none →
      (walk hash s start names).1 = .error (.notFound st)) := by
  constructor
  · intro hsome
    constructor
    · intro hv
      simp only [walk, hn, hsome, if_true]
      rw [walkAux_ok_reached hash s.nodes names st hv]
    · intro pre name post hsplit hvalid hall hbad
      simp only [walk, hn, hsome, if_true]
      rw [hsplit, walkAux_invalid_reached hash s.nodes pre name post st hvalid hall hbad]
  · intro hnone
    simp [walk, hn, hnone]

/-- C3 witness: from the root of the demo state, walking `["f"]` yields
the file qid of `/f`; walking `["nosuch", "x"]` stops at the absent first
component and succeeds with no qids; walking `["nosuch", "x/y"]` — a
malformed name sitting after the stopping point — also succeeds with no
qids, the malformed name never being examined; walking `["a/b"]` fails
`InvalidPath`; walking from the absent start `/x` fails `NotFound`. -/
theorem C3_witness :
    normalizePath "/".data = .ok rootPath ∧
    (lookupNS demoState.nodes rootPath).isSome = true ∧
    (walk hash0 demoState "/".data ["f".data]).1 =
      .ok ⟨[Qid.new_file 0 0]⟩ ∧
    (walk hash0 demoState "/".data ["nosuch".data, "x".data]).1 = .ok ⟨[]⟩ ∧
    (walk hash0 demoState "/".data ["nosuch".data, "x/y".data]).1 = .ok ⟨[]⟩ ∧
    (walk hash0 demoState "/".data ["a/b".data]).1 =
      .error (.invalidPath ("invalid name: a/b".data)) ∧
    (walk hash0 demoState "/x".data []).1 = .error (.notFound "/x".data) := by
  refine ⟨by decide, by decide, ?_, ?_, ?_, ?_, ?_⟩
  · have h := (((C3_walk_semantics hash0 demoState "/".data rootPath ["f".data]
      (by decide)).1 (by decide)).1 (by decide))
    rw [h]
    decide
  · have h := (((C3_walk_semantics hash0 demoState "/".data rootPath
      ["nosuch".data, "x".data] (by decide)).1 (by decide)).1 (by decide))
    rw [h]
    decide
  · have h := (((C3_walk_semantics hash0 demoState "/".data rootPath
      ["nosuch".data, "x/y".data] (by decide)).1 (by decide)).1 (by decide))
    rw [h]
    decide
  · exact (((C3_walk_semantics hash0 demoState "/".data rootPath ["a/b".data]
      (by decide)).1 (by decide)).2 [] "a/b".data [] rfl (by decide) (by decide)
      (by decide))
  · exact ((C3_walk_semantics hash0 demoState "/x".data "/x".data []
      (by decide)).2 (by decide))

theorem lookupNS_replaceNS_isSome (ns : NS) (p k : Str) (n : Node)
    (h : (lookupNS ns k).isSome) : (lookupNS (replaceNS ns p n) k).isSome := by
  by_cases hk : k = p
  · subst hk
    rw [lookupNS_replaceNS_self ns k n h]
    rfl
  · rw [lookupNS_replaceNS_ne ns p k n hk]
    exact h

theorem lookupNS_insertNS_isSome (ns : NS) (q k : Str) (n : Node)
    (h : (lookupNS ns k).isSome) : (lookupNS (insertNS ns q n) k).isSome := by
  unfold insertNS
  cases hq : lookupNS ns q with
  | some v => exact lookupNS_replaceNS_isSome ns q k n h
  | none =>
    rw [lookupNS_append]
    cases hk : lookupNS ns k with
    | some v => rfl
    | none => rw [hk] at h; cases h

/-- `open` never touches the node store. -/
theorem openOp_nodes (hash : Str → Nat) (s : VfsMem) (p : Str) (k : Kind)
    (mode : Nat) : (openOp hash s p k mode).2.nodes = s.nodes := by
  unfold openOp
  rcases normalizePath p with e | q
  · rfl
  · rcases hl : lookupNS s.nodes q with _ | node
    · simp [hl]
    · simp only [hl]
      by_cases hv : (if node.is_file = true then k.containsFile else k.containsDir) = true
      · simp [hv]
      · simp only [hv, Bool.false_eq_true, if_false]
        split <;> rfl

/-- The node store after `create` is the old store or the old store with
one binding inserted. -/
theorem create_nodes_cases (hash : Str → Nat) (now : Nat) (s : VfsMem)
    (p : Str) (k : Kind) (mode : Nat) :
    (create hash now s p k mode).2.nodes = s.nodes ∨
      ∃ q n, (create hash now s p k mode).2.nodes = insertNS s.nodes q n := by
  unfold create
  rcases normalizePath p with e | q
  · exact Or.inl rfl
  · by_cases hs : (lookupNS s.nodes q).isSome
    · simp [hs]
    · simp only [hs, Bool.false_eq_true, if_false]
      rcases ensureParentExists q s.nodes with e | u
      · exact Or.inl rfl
      · by_cases hf : k.containsFile = true
        · simp only [hf, if_true]
          exact Or.inr ⟨q, Node.new_file now, openOp_nodes hash _ q k mode⟩
        · simp only [hf, Bool.false_eq_true, if_false]
          by_cases hd : k.containsDir = true
          · simp only [hd, if_true]
            exact Or.inr ⟨q, Node.new_dir now, openOp_nodes hash _ q k mode⟩
          · simp [hd]

/-- The node store after `write` is the old store or the old store with
one binding replaced. -/
theorem write_nodes_cases (now : Nat) (s : VfsMem) (hp : Str) (offset : Nat)
    (data : List Nat) :
    (write now s hp offset data).2.nodes = s.nodes ∨
      ∃ n, (write now s hp offset data).2.nodes = replaceNS s.nodes hp n := by
  unfold write
  rcases lookupNS s.nodes hp with _ | (_ | _)
  · exact Or.inl rfl
  · exact Or.inr ⟨_, rfl⟩
  · exact Or.inl rfl

/-- The node store after `remove` is the old store or the old store with
a non-root binding removed. -/
theorem remove_nodes_cases (s : VfsMem) (p : Str) :
    (remove s p).2.nodes = s.nodes ∨
      ∃ q, q ≠ rootPath ∧ (remove s p).2.nodes = removeNS s.nodes q := by
  unfold remove
  rcases normalizePath p with e | q
  · exact Or.inl rfl
  · by_cases hq : q = rootPath
    · simp [hq]
    · simp only [hq, if_false]
      split
    /- the non-empty directory branch leaves the store unchanged -/
      · exact Or.inl rfl
      · rcases lookupNS s.nodes q with _ | n
        · exact Or.inl rfl
        · exact Or.inr ⟨q, hq, rfl⟩

/-- The root key is present in every reachable state. -/
theorem Reachable.root_isSome (hash : Str → Nat) (s : VfsMem)
    (h : Reachable hash s) : (lookupNS s.nodes rootPath).isSome := by
  induction h with
  | base now => simp [VfsMem.new, lookupNS]
  | openStep s p k mode _ ih => rw [openOp_nodes]; exact ih
  | createStep now s p k mode _ ih =>
    rcases create_nodes_cases hash now s p k mode with hc | ⟨q, n, hc⟩
    · rw [hc]; exact ih
    · rw [hc]; exact lookupNS_insertNS_isSome s.nodes q rootPath n ih
  | writeStep now s hp offset data _ ih =>
    rcases write_nodes_cases now s hp offset data with hc | ⟨n, hc⟩
    · rw [hc]; exact ih
    · rw [hc]; exact lookupNS_replaceNS_isSome s.nodes hp rootPath n ih
  | removeStep s p _ ih =>
    rcases remove_nodes_cases s p with hc | ⟨q, hq, hc⟩
    · rw [hc]; exact ih
    · rw [hc]
      rw [lookupNS_removeNS_ne s.nodes q rootPath (fun he => hq he.symm)]
      exact ih

/-- C5: in every reachable backend state the root path `/` is present in
the namespace, `stat("/")` succeeds, and `remove("/")` fails
`PermissionDenied` leaving the state unchanged. -/
theorem C5_root_invariants (hash : Str → Nat) (s : VfsMem)
    (h : Reachable hash s) :
    (lookupNS s.nodes rootPath).isSome ∧
    (∃ st, stat hash s rootPath = (.ok st, s)) ∧
    remove s rootPath = (.error (.permissionDenied ("cannot remove root".data)), s) := by
  have hroot := Reachable.root_isSome hash s h
  have hnorm : normalizePath rootPath = .ok rootPath := by decide
  refine ⟨hroot, ?_, ?_⟩
  · cases hl : lookupNS s.nodes rootPath with
    | none => rw [hl] at hroot; cases hroot
    | some node =>
      exact ⟨nodeToStat hash rootPath node, by simp [stat, hnorm, hl]⟩
  · simp [remove, hnorm]

/-- C5 witness: the fresh backend is reachable, its root is present,
`stat("/")` succeeds, and `remove("/")` is denied; root presence also
holds after a create step. -/
theorem C5_witness :
    (lookupNS initState.nodes rootPath).isSome = true ∧
    remove initState rootPath =
      (.error (.permissionDenied ("cannot remove root".data)), initState) ∧
    (lookupNS (create hash0 1 initState "/f".data Kind.fileK 0).2.nodes
      rootPath).isSome = true := by
  have h1 := C5_root_invariants hash0 initState (Reachable.base 0)
  have h2 := C5_root_invariants hash0 _
    (Reachable.createStep 1 initState "/f".data Kind.fileK 0 (Reachable.base 0))
  exact ⟨h1.1, h1.2.2, h2.1⟩

/-- C2 witness: creating `/../etc/passwd` fails `InvalidPath` (scenario
S6), and creating `/a` in the fresh backend appends exactly one empty
file node at `/a`. -/
theorem C2_witness :
    normalizePath "/../etc/passwd".data =
      .error (.invalidPath (".. traversal not allowed".data)) ∧
    create hash0 7 initState "/../etc/passwd".data Kind.fileK 0 =
      (.error (.invalidPath (".. traversal not allowed".data)), initState) ∧
    create hash0 7 initState "/a".data Kind.fileK 0 =
      (.ok ⟨1, Qid.new_file 0 0, "/a".data, 0⟩,
       { nodes := initState.nodes ++ [("/a".data, Node.file [] 7 0)],
         nextFid := 2 }) := by
  refine ⟨by decide, ?_, ?_⟩
  · exact ((C2_create_semantics hash0 7 initState "/../etc/passwd".data
      Kind.fileK 0).1 _ (by decide)).1
  · have h := (((C2_create_semantics hash0 7 initState "/a".data
      Kind.fileK 0).2 "/a".data (by decide)).2 (by decide)).2.2 (by decide)
    exact h.2.1 rfl

theorem isPrefixOf_append_drop :
    ∀ (pre l : Str), pre.isPrefixOf l = true → pre ++ l.drop pre.length = l := by
  intro pre
  induction pre with
  | nil => intro l _; rfl
  | cons a t ih =>
    intro l h
    cases l with
    | nil => simp [List.isPrefixOf] at h
    | cons b bs =>
      simp only [List.isPrefixOf, Bool.and_eq_true, beq_iff_eq] at h
      simp only [List.length_cons, List.drop_succ_cons, List.cons_append, h.1]
      rw [ih bs h.2]

/-- The child path built by `walk`/`readdir` is the readdir prefix
followed by the name. -/
theorem childPath_eq_pre (dp name : Str) :
    childPath dp name = dirPre dp ++ name := by
  unfold childPath dirPre
  by_cases h : dp = rootPath
  · simp [h, rootPath]
  · simp only [h, if_false]
    rw [List.append_assoc]
    rfl

/-- The stats gathered by `readdir` over any sub-list of entries whose
bindings are visible in the full map `m` are exactly the stats of the
immediate-child entries. -/
theorem readdir_children_eq (hash : Str → Nat) (m : NS) (dp : Str)
    (ns : NS) (hns : ∀ kv ∈ ns, lookupNS m kv.1 = some kv.2) :
    (getDirChildren dp ns).filterMap (fun childName =>
        (lookupNS m (childPath dp childName)).map
          (fun childNode => nodeToStat hash (childPath dp childName) childNode)) =
      (ns.filter (fun kv => immediateChildB dp kv.1)).map
        (fun kv => nodeToStat hash kv.1 kv.2) := by
  induction ns with
  | nil => rfl
  | cons kv rest ih =>
    obtain ⟨k, v⟩ := kv
    have hk := hns (k, v) (List.mem_cons_self (k, v) rest)
    have ihr := ih (fun kv2 h2 => hns kv2 (List.mem_cons_of_mem _ h2))
    simp only [getDirChildren, keysNS, List.map_cons, List.filter_cons] at ihr ⊢
    by_cases h1 : ((dirPre dp).isPrefixOf k && decide (k ≠ dp)) = true
    · rw [if_pos h1]
      rw [List.filterMap_cons]
      by_cases h2 : (k.drop (dirPre dp).length).contains '/' = true
      · rw [if_pos h2]
        rw [ihr]
        have hfalse : immediateChildB dp k = false := by
          unfold immediateChildB
          rw [h1, h2]
          rfl
        simp [hfalse]
      · rw [if_neg h2]
        have hck : childPath dp (k.drop (dirPre dp).length) = k := by
          rw [childPath_eq_pre]
          exact isPrefixOf_append_drop (dirPre dp) k
            (by
              have := h1
              simp only [Bool.and_eq_true] at this
              exact this.1)
        rw [List.filterMap_cons]
        simp only [hck, hk, Option.map_some]
        have htrue : immediateChildB dp k = true := by
          unfold immediateChildB
          rw [h1]
          simp only [Bool.true_and, Bool.not_eq_true']
          simp only [Bool.not_eq_true] at h2
          exact h2
        rw [ihr]
        simp [htrue]
    · rw [if_neg h1]
      rw [ihr]
      have hfalse : immediateChildB dp k = false := by
        unfold immediateChildB
        simp only [Bool.not_eq_true] at h1
        rw [h1]
        rfl
      simp [hfalse]

/-- C7: for a handle on an existing directory (in a namespace with
distinct keys, as a hash map guarantees), `readdir` returns the stats of
exactly the immediate children — the entries whose key starts (strictly)
with the handle's path plus a separator (simply `/` for the root) and
whose remainder contains no further separator — no more and no fewer. -/
theorem C7_readdir_immediate (hash : Str → Nat) (s : VfsMem) (dp : Str)
    (hnd : (keysNS s.nodes).Nodup) (m : Nat)
    (hlook : lookupNS s.nodes dp = some (.dir m)) :
    (readdir hash s dp).1 =
      .ok ((s.nodes.filter (fun kv => immediateChildB dp kv.1)).map
            (fun kv => nodeToStat hash kv.1 kv.2)) ∧
    ∀ pkey, (∃ kv ∈ s.nodes.filter (fun kv => immediateChildB dp kv.1), kv.1 = pkey) ↔
      (pkey ∈ keysNS s.nodes ∧ immediateChildB dp pkey = true) := by
  constructor
  · have hns : ∀ kv ∈ s.nodes, lookupNS s.nodes kv.1 = some kv.2 :=
      fun kv hkv => lookupNS_mem_of_nodup s.nodes kv.1 kv.2 hnd hkv
    simp only [readdir, hlook]
    rw [readdir_children_eq hash s.nodes dp s.nodes hns]
  · intro pkey
    constructor
    · rintro ⟨kv, hmem, rfl⟩
      obtain ⟨hin, hpred⟩ := List.mem_filter.1 hmem
      exact ⟨List.mem_map.2 ⟨kv, hin, rfl⟩, by simpa using hpred⟩
    · rintro ⟨hkeys, hpred⟩
      obtain ⟨kv, hin, hfst⟩ := List.mem_map.1 hkeys
      exact ⟨kv, List.mem_filter.2 ⟨hin, by rw [hfst]; simpa using hpred⟩, hfst⟩

/-- C7 witness: in the demo state the immediate children of the root are
exactly `/f` and `/d`, and `readdir` returns their two stats. -/
theorem C7_witness :
    (keysNS demoState.nodes).Nodup ∧
    lookupNS demoState.nodes rootPath = some (.dir 0) ∧
    (readdir hash0 demoState rootPath).1 =
      .ok [⟨Qid.new_file 0 0, "f".data, 1, 0o644, 0, 0, "user".data, "group".data⟩,
           ⟨Qid.new_dir 0 0, "d".data, 0, 0o755, 0, 0, "user".data, "group".data⟩] := by
  refine ⟨by decide, by decide, ?_⟩
  rw [(C7_readdir_immediate hash0 demoState rootPath (by decide) 0 (by decide)).1]
  decide

/-- C6 counterexample: the claim asserts that for P = `/` the stat name
field is the entire string `/`, but `node_to_stat` computes
`path.split('/').last()`, which for `/` is `Some("")`, so the root's stat
name is the empty string. -/
theorem C6_counterexample_root_name :
    (stat hash0 initState "/".data).1 =
      .ok ⟨Qid.new_dir 0 0, [], 0, 0o755, 0, 0, "user".data, "group".data⟩ ∧
    ([] : Str) ≠ "/".data := ⟨by decide, by decide⟩

/-- C6 (amended): for every present path, `stat` returns a Stat whose
name is the final component of the canonical path — the last piece of the
split on `'/'` of the part after the leading slash; for P = `/` the name
is the empty string — whose size is the node's byte length (0 for
directories), whose Qid path is the hash of the canonical path, whose Qid
version mirrors the node's version (0 for directories), and whose mode is
0o755 for directories and 0o644 for files; stat of an absent path fails
`NotFound`. -/
theorem C6_stat_fields (hash : Str → Nat) (s : VfsMem) (p q : Str)
    (hn : normalizePath p = .ok q) :
    (∀ node, lookupNS s.nodes q = some node →
      ∃ st, (stat hash s p).1 = .ok st ∧
        (∀ clean, q = '/' :: clean →
          st.name = ((splitChar '/' clean).getLast?).getD clean) ∧
        (q = rootPath → st.name = []) ∧
        st.size = node.size ∧
        st.qid.path = hash q ∧
        st.qid.version = node.version ∧
        st.mode = (if node.is_dir then 0o755 else 0o644)) ∧
    (lookupNS s.nodes q = none →
      (stat hash s p).1 = .error (.notFound q)) := by
  constructor
  · intro node hlook
    refine ⟨nodeToStat hash q node, by simp [stat, hn, hlook], ?_, ?_, ?_, ?_, ?_, ?_⟩
    · intro clean hclean
      subst hclean
      have hsp1 : splitChar '/' ('/' :: clean) = [] :: splitChar '/' clean := by
        simp [splitChar]
      cases hsp : splitChar '/' clean with
      | nil => exact absurd hsp (splitChar_ne_nil '/' clean)
      | cons g gs =>
        cases hgl : (g :: gs).getLast? with
        | none => simp at hgl
        | some x =>
          show (match (splitChar '/' ('/' :: clean)).getLast? with
            | some n => n
            | none => '/' :: clean) = _
          rw [hsp1, hsp, List.getLast?_cons_cons, hgl]
          rfl
    · intro hq
      subst hq
      rfl
    · rfl
    · cases node <;> rfl
    · cases node <;> rfl
    · cases node <;> rfl
  · intro hlook
    simp [stat, hn, hlook]

/-- C6 witness: `stat` of `/f` in the demo state has name `f`, size 1,
qid path `hash0 "/f"`, qid version 0, and mode 0o644. -/
theorem C6_witness :
    lookupNS demoState.nodes "/f".data = some (.file [1] 0 0) ∧
      (stat hash0 demoState "/f".data).1 =
        .ok ⟨Qid.new_file 0 0, "f".data, 1, 0o644, 0, 0, "user".data, "group".data⟩ ∧
      "f".data = ((splitChar '/' "f".data).getLast?).getD "f".data := by
  refine ⟨by decide, ?_, by decide⟩
  obtain ⟨st, hst, hname, _, hsize, hpath, hver, hmode⟩ :=
    (C6_stat_fields hash0 demoState "/f".data "/f".data (by decide)).1
      (.file [1] 0 0) (by decide)
  rw [hst]
  have h1 := hname "f".data (by decide)
  have : st = ⟨Qid.new_file 0 0, "f".data, 1, 0o644, 0, 0, "user".data, "group".data⟩ := by
    obtain ⟨⟨ty, ver, pa⟩, name, size, mode, atime, mtime, uid, gid⟩ := st
    simp only at h1 hsize hpath hver hmode
    /- the remaining fields (type byte, times, uid, gid) are fixed by the
       stat construction; recover them by computing the stat directly -/
    have hdirect : (stat hash0 demoState "/f".data).1 =
        .ok ⟨Qid.new_file 0 0, "f".data, 1, 0o644, 0, 0, "user".data, "group".data⟩ := by
      decide
    rw [hdirect] at hst
    cases hst
    rfl
  rw [this]

/-- `open` either fails leaving the state untouched or succeeds advancing
only the handle counter. -/
theorem openOp_shape (hash : Str → Nat) (s : VfsMem) (p : Str) (k : Kind)
    (mode : Nat) :
    (∃ e, openOp hash s p k mode = (.error e, s)) ∨
      ∃ h, openOp hash s p k mode = (.ok h, { s with nextFid := s.nextFid + 1 }) := by
  unfold openOp
  rcases normalizePath p with e | q
  · exact Or.inl ⟨e, rfl⟩
  · rcases hl : lookupNS s.nodes q with _ | node
    · exact Or.inl ⟨.notFound q, by simp [hl]⟩
    · by_cases hv : (if node.is_file = true then k.containsFile else k.containsDir) = true
      · exact Or.inr ⟨⟨s.nextFid, qidOfNode hash q node, q, mode⟩, by simp [hl, hv]⟩
      · cases hf : node.is_file with
        | true =>
          have hkf : k.containsFile = false := by
            rw [hf] at hv
            simpa using hv
          exact Or.inl ⟨.notADirectory q, by simp [hl, hf, hkf]⟩
        | false =>
          have hkd : k.containsDir = false := by
            rw [hf] at hv
            simpa using hv
          exact Or.inl ⟨.isADirectory q, by simp [hl, hf, hkd]⟩

/-- `create` either fails leaving the state untouched or succeeds. -/
theorem create_shape (hash : Str → Nat) (now : Nat) (s : VfsMem) (p : Str)
    (k : Kind) (mode : Nat) :
    (∃ e, create hash now s p k mode = (.error e, s)) ∨
      ∃ h st2, create hash now s p k mode = (.ok h, st2) := by
  rcases hn : normalizePath p with e | q
  · exact Or.inl ⟨e, by simp [create, hn]⟩
  · by_cases hs : (lookupNS s.nodes q).isSome
    · exact Or.inl ⟨.alreadyExists q, by simp [create, hn, hs]⟩
    · have hnone : lookupNS s.nodes q = none := by
        cases hl : lookupNS s.nodes q with
        | none => rfl
        | some v => rw [hl] at hs; simp at hs
      rcases he2 : ensureParentExists q s.nodes with e2 | u
      · exact Or.inl ⟨e2, by simp [create, hn, hs, he2]⟩
      · have hidem := normalizePath_idem p q hn
        by_cases hf : k.containsFile = true
        · have h := openOp_after_insert hash s q k mode (Node.new_file now)
            hidem hnone (by simp [Node.new_file, Node.is_file, hf])
          refine Or.inr ⟨⟨s.nextFid, qidOfNode hash q (Node.new_file now), q, mode⟩,
            { nodes := s.nodes ++ [(q, Node.new_file now)],
              nextFid := s.nextFid + 1 }, ?_⟩
          simp only [create, hn, hs, Bool.false_eq_true, if_false, he2, hf,
            if_true]
          exact h
        · by_cases hd : k.containsDir = true
          · have h := openOp_after_insert hash s q k mode (Node.new_dir now)
              hidem hnone (by simp [Node.new_dir, Node.is_file, hd])
            refine Or.inr ⟨⟨s.nextFid, qidOfNode hash q (Node.new_dir now), q, mode⟩,
              { nodes := s.nodes ++ [(q, Node.new_dir now)],
                nextFid := s.nextFid + 1 }, ?_⟩
            simp only [create, hn, hs, Bool.false_eq_true, if_false, he2, hf,
              hd, if_true]
            exact h
          · exact Or.inl ⟨.invalidArgument ("unknown type".data),
              by simp [create, hn, hs, he2, hf, hd]⟩

/-- `write` either fails leaving the state untouched or succeeds. -/
theorem write_shape (now : Nat) (s : VfsMem) (hp : Str) (offset : Nat)
    (data : List Nat) :
    (∃ e, write now s hp offset data = (.error e, s)) ∨
      ∃ st2, write now s hp offset data = (.ok data.length, st2) := by
  unfold write
  rcases lookupNS s.nodes hp with _ | (_ | _)
  · exact Or.inl ⟨_, rfl⟩
  · exact Or.inr ⟨_, rfl⟩
  · exact Or.inl ⟨_, rfl⟩

/-- `remove` either fails leaving the state untouched or succeeds. -/
theorem remove_shape (s : VfsMem) (p : Str) :
    (∃ e, remove s p = (.error e, s)) ∨ ∃ st2, remove s p = (.ok (), st2) := by
  rcases hn : normalizePath p with e | q
  · exact Or.inl ⟨e, by simp [remove, hn]⟩
  · by_cases hq : q = rootPath
    · exact Or.inl ⟨.permissionDenied ("cannot remove root".data),
        by simp [remove, hn, hq]⟩
    · by_cases hb : (match lookupNS s.nodes q with
        | some node => node.is_dir && !(getDirChildren q s.nodes).isEmpty
        | none => false) = true
      · exact Or.inl ⟨.invalidArgument ("directory not empty".data),
          by simp only [remove, hn, hq, if_false, hb, if_true]⟩
      · rcases hl : lookupNS s.nodes q with _ | n
        · refine Or.inl ⟨.notFound q, ?_⟩
          simp only [remove, hn, hq, if_false, hb, Bool.false_eq_true, hl]
        · refine Or.inr ⟨{ s with nodes := removeNS s.nodes q }, ?_⟩
          have hb2 : (n.is_dir && !(getDirChildren q s.nodes).isEmpty) = false := by
            rw [hl] at hb
            simpa using hb
          simp only [remove, hn, hq, if_false, hl, hb2, Bool.false_eq_true]

/-- C9: whenever a backend operation returns an error, the backend state
is exactly as it was before the call — no namespace entry is added,
removed or modified, and the handle counter is unchanged; in particular
a failed `open` or `create` consumes no handle id (the four read-only
operations never change the state at all). -/
theorem C9_error_frame (hash : Str → Nat) (now : Nat) (s : VfsMem)
    (p start hp dpath : Str) (k : Kind) (mode offset count : Nat)
    (data : List Nat) (names : List Str) :
    (∀ e, (openOp hash s p k mode).1 = .error e → (openOp hash s p k mode).2 = s) ∧
    (∀ e, (create hash now s p k mode).1 = .error e →
      (create hash now s p k mode).2 = s) ∧
    (∀ e, (write now s hp offset data).1 = .error e →
      (write now s hp offset data).2 = s) ∧
    (∀ e, (remove s p).1 = .error e → (remove s p).2 = s) ∧
    (walk hash s start names).2 = s ∧
    (stat hash s p).2 = s ∧
    (read s hp offset count).2 = s ∧
    (readdir hash s dpath).2 = s := by
  refine ⟨?_, ?_, ?_, ?_, rfl, rfl, rfl, rfl⟩
  · intro e he
    rcases openOp_shape hash s p k mode with ⟨e2, hs⟩ | ⟨h, hs⟩
    · rw [hs]
    · rw [hs] at he
      cases he
  · intro e he
    rcases create_shape hash now s p k mode with ⟨e2, hs⟩ | ⟨h, st2, hs⟩
    · rw [hs]
    · rw [hs] at he
      cases he
  · intro e he
    rcases write_shape now s hp offset data with ⟨e2, hs⟩ | ⟨st2, hs⟩
    · rw [hs]
    · rw [hs] at he
      cases he
  · intro e he
    rcases remove_shape s p with ⟨e2, hs⟩ | ⟨st2, hs⟩
    · rw [hs]
    · rw [hs] at he
      cases he

/-- C9 witness: opening the absent path `/x` and removing it both fail
and leave the demo state unchanged, consuming no handle id. -/
theorem C9_witness :
    (openOp hash0 demoState "/x".data Kind.fileK 0).1 =
      .error (.notFound "/x".data) ∧
    (openOp hash0 demoState "/x".data Kind.fileK 0).2 = demoState ∧
    (remove demoState "/x".data).1 = .error (.notFound "/x".data) ∧
    (remove demoState "/x".data).2 = demoState := by
  refine ⟨by decide, ?_, by decide, ?_⟩
  · exact (C9_error_frame hash0 0 demoState "/x".data [] [] [] Kind.fileK 0 0 0
      [] []).1 (.notFound "/x".data) (by decide)
  · exact (C9_error_frame hash0 0 demoState "/x".data [] [] [] Kind.fileK 0 0 0
      [] []).2.2.2.1 (.notFound "/x".data) (by decide)

/-- C10: `walk`, `stat`, `read` and `readdir` never modify the backend —
after any such call, succeeding or failing, the namespace map and the
handle counter equal their values before the call (the source holds only
the shared read lock in these operations, and the translation reflects
that they structurally return the state unchanged). -/
theorem C10_readonly_frame (hash : Str → Nat) (s : VfsMem)
    (start p hp dpath : Str) (names : List Str) (offset count : Nat) :
    (walk hash s start names).2 = s ∧
    (stat hash s p).2 = s ∧
    (read s hp offset count).2 = s ∧
    (readdir hash s dpath).2 = s :=
  ⟨rfl, rfl, rfl, rfl⟩

/-- C1 witness: writing byte 9 at offset 3 of `/f` (one byte long)
returns 1, zero-fills positions 1 and 2, and puts 9 at position 3. -/
theorem C1_witness :
    lookupNS demoState.nodes "/f".data = some (.file [1] 0 0) ∧
      (write 5 demoState "/f".data 3 [9]).1 = .ok 1 ∧
      lookupNS (write 5 demoState "/f".data 3 [9]).2.nodes "/f".data =
        some (.file [1, 0, 0, 9] 5 1) := by
  refine ⟨by decide, (C1_write_extends 5 demoState "/f".data 3 [9] [1] 0 0
    (by decide)).1, by decide⟩

end Bulkhead
